import Mathlib

/-!
# Verification of the percussion-track rewriting passes

Shallow embedding of `src/clear_percussion_tracks.py` (rest coalescing) and
`src/standardize_percussion_tracks.py` (note simplification, trimming and
lane placement), together with proofs about the behaviours the design
document describes.

Modelling conventions:
* A `Note` carries its instrument code (`value`), its lane (`string`) and an
  `id` field standing for all other attributes, which the passes treat as
  opaque and preserve verbatim.
* A `Beat` carries a duration measured in ticks (PyGuitarPro's integer
  `Duration.time`) and its list of notes; an empty list is a rest.
* Python `set` objects built from note values are modelled as duplicate-free
  lists in first-occurrence order; only membership and an arbitrary
  linearization of the iteration order are observable, and the design
  document states that the selection among remaining candidates in the trim
  loop is arbitrary.
* `guitarpro.Duration.fromTime` is external to the repository; the passes
  only observe whether it succeeds on a summed time, so the coalescer is
  parametrized by a predicate `rep : ℕ → Bool` saying which times are
  exactly representable as standard durations.
-/

structure Note where
  value : ℕ
  string : ℕ
  id : ℕ
deriving DecidableEq, Repr

structure Beat where
  duration : ℕ
  notes : List Note
deriving DecidableEq, Repr

structure Voice where
  beats : List Beat
deriving DecidableEq, Repr

structure Measure where
  voices : List Voice
deriving DecidableEq, Repr

structure Track where
  isPercussionTrack : Bool
  measures : List Measure
deriving DecidableEq, Repr

/-- `TOMS` from `standardize_percussion_tracks.py` line 55. -/
def TOMS : List ℕ := [38, 40, 37, 41, 43, 45, 47, 48, 50]

/-- `CYMBALS` from `standardize_percussion_tracks.py` line 56. -/
def CYMBALS : List ℕ := [49, 57, 52, 55, 51, 53, 54, 56, 59, 42, 44, 46]

/-- `HAND_NOTES = TOMS.union(CYMBALS)`, line 57.  Only membership is used. -/
def HAND_NOTES : List ℕ := TOMS ++ CYMBALS

/-- `_simplify_note`: unify references to bass drum, snare drum or ride
cymbal (35 → 36, 40 → 38, 59 → 51). -/
def simplifyNote (n : Note) : Note :=
  if n.value = 35 then { n with value := 36 }
  else if n.value = 40 then { n with value := 38 }
  else if n.value = 59 then { n with value := 51 }
  else n

/-- `_place_note`: place a note on a lane depending on the other values
present in the beat (`nv` is the set of values of the post-trim beat). -/
def placeNote (n : Note) (nv : List ℕ) : Note :=
  if n.value = 36 then { n with string := 5 }
  else if n.value = 38 then { n with string := 3 }
  else if n.value = 44 then { n with string := 6 }
  else if n.value = 49 then { n with string := 1 }
  else if n.value ∈ CYMBALS then
    if nv.any (fun v => decide (v ∈ CYMBALS ∧ (v < n.value ∨ v = 49))) then
      { n with string := 2 }
    else
      { n with string := 1 }
  else if n.value ∈ TOMS then
    if nv.any (fun v => decide (v ∈ TOMS ∧ (v < n.value ∨ v = 38))) then
      { n with string := 4 }
    else
      { n with string := 3 }
  else n

/-- Values of a list of naturals with duplicates removed, keeping the first
occurrence of each value; `seen` accumulates the values already emitted.
Linearizes the Python sets `set(note.value for note in notes)`. -/
def dedupKeepFirstAux (seen : List ℕ) : List ℕ → List ℕ
  | [] => []
  | v :: l =>
    if v ∈ seen then dedupKeepFirstAux seen l
    else v :: dedupKeepFirstAux (v :: seen) l

def dedupKeepFirst (l : List ℕ) : List ℕ := dedupKeepFirstAux [] l

/-- The dict comprehension `{note.value: note for note in notes}.values()`
(line 159): one note per distinct value, keys in first-occurrence order,
and for each value the LAST note carrying it (later writes overwrite the
dict entry in place). -/
def dedupByValue (l : List Note) : List Note :=
  (dedupKeepFirst (l.map Note.value)).filterMap
    (fun v => l.reverse.find? (fun m => m.value == v))

/-- Addition to a Python set, modelled on a duplicate-free list. -/
def rvInsert (rv : List ℕ) (v : ℕ) : List ℕ :=
  if v ∈ rv then rv else rv ++ [v]

/-- The body of the `while len(return_values) < 2` loop of
`_trim_note_values` (lines 126-144): try to append one cymbal value from
`nv` and, if still under two, one tom value. -/
def trimStep (nv rv : List ℕ) : List ℕ :=
  let rv1 :=
    match nv.find? (fun v => decide (v ∈ CYMBALS ∧ v ∉ rv)) with
    | some v => rv ++ [v]
    | none => rv
  if rv1.length < 2 then
    match nv.find? (fun v => decide (v ∈ TOMS ∧ v ∉ rv1)) with
    | some v => rv1 ++ [v]
    | none => rv1
  else rv1

/-- The `while len(return_values) < 2` loop itself.  The source loop is a
`while`; it is modelled with fuel, which is only exhausted on inputs where
the source would loop forever (no remaining candidates), a situation the
proofs show cannot arise from the call site. -/
def trimLoop : ℕ → List ℕ → List ℕ → List ℕ
  | 0, _, rv => rv
  | fuel + 1, nv, rv =>
    if rv.length < 2 then trimLoop fuel nv (trimStep nv rv) else rv

/-- The prioritized seeding of `return_values` (lines 119-125): add the
snare code 38 if present, the crash code 49 if present, and — if still
under two values and 57 is present — add 49 (sic: the source adds the
primary crash code, not the 57 it just found). -/
def trimSeed (nv : List ℕ) : List ℕ :=
  let r0 := if 38 ∈ nv then [38] else []
  let r1 := if 49 ∈ nv then rvInsert r0 49 else r0
  if r1.length < 2 ∧ 57 ∈ nv then rvInsert r1 49 else r1

/-- The set of hand values `_trim_note_values` decides to keep, as a
function of the beat's value set `nv` (lines 118-147):  when more than two
hand values are present, seed by priority and fill up to two with the
loop; otherwise keep all hand values. -/
def trimKeptValues (nv : List ℕ) : List ℕ :=
  let hv := nv.filter (fun v => decide (v ∈ HAND_NOTES))
  if 2 < hv.length then trimLoop (nv.length + 2) nv (trimSeed nv)
  else hv

/-- `_trim_note_values` (lines 114-149): keep the notes whose value is
either a retained hand value or any non-hand value. -/
def trimNoteValues (notes : List Note) : List Note :=
  let nv := dedupKeepFirst (notes.map Note.value)
  let kept := trimKeptValues nv ++ nv.filter (fun v => decide (v ∉ HAND_NOTES))
  notes.filter (fun n => decide (n.value ∈ kept))

/-- The per-beat body of `standardize_track` (lines 157-167): skip empty
beats, otherwise simplify every note, deduplicate by value, trim, and place
every surviving note using the post-trim value set. -/
def standardizeBeat (notes : List Note) : List Note :=
  if notes.isEmpty then notes
  else
    let simplified := dedupByValue (notes.map simplifyNote)
    let trimmed := trimNoteValues simplified
    let nv := dedupKeepFirst (trimmed.map Note.value)
    trimmed.map (fun n => placeNote n nv)

def standardizeBeatObj (b : Beat) : Beat :=
  { b with notes := standardizeBeat b.notes }

def standardizeVoice (v : Voice) : Voice :=
  { beats := v.beats.map standardizeBeatObj }

def standardizeMeasure (m : Measure) : Measure :=
  { voices := m.voices.map standardizeVoice }

/-- `standardize_track` (lines 152-168). -/
def standardizeTrack (t : Track) : Track :=
  { t with measures := t.measures.map standardizeMeasure }

/-- The track-list rewrite inside `standardize` (lines 174-178): percussion
tracks are standardized, all others pass through unchanged. -/
def standardizeTracks (ts : List Track) : List Track :=
  ts.map (fun t => if t.isPercussionTrack then standardizeTrack t else t)

/-- The scan of `remove_rests_from_track` over one voice (lines 46-61),
carrying the current merge target `last`.  `rep t` tells whether the summed
time `t` is exactly representable as a standard duration
(`guitarpro.Duration.fromTime` succeeding). -/
def coalesceGo (rep : ℕ → Bool) : Option Beat → List Beat → List Beat
  | last, [] => last.toList
  | last, b :: bs =>
    if b.notes.isEmpty then
      match last with
      | some l =>
        if rep (l.duration + b.duration) then
          coalesceGo rep (some { l with duration := l.duration + b.duration }) bs
        else
          l :: coalesceGo rep (some b) bs
      | none => b :: coalesceGo rep none bs
    else
      match last with
      | some l => l :: coalesceGo rep (some b) bs
      | none => coalesceGo rep (some b) bs

def removeRestsFromVoice (rep : ℕ → Bool) (v : Voice) : Voice :=
  { beats := coalesceGo rep none v.beats }

def removeRestsFromMeasure (rep : ℕ → Bool) (m : Measure) : Measure :=
  { voices := m.voices.map (removeRestsFromVoice rep) }

/-- `remove_rests_from_track` (lines 38-63). -/
def removeRestsFromTrack (rep : ℕ → Bool) (t : Track) : Track :=
  { t with measures := t.measures.map (removeRestsFromMeasure rep) }

/-- Modelled from the spec: the external collaborator's canonicalizable
duration times (`guitarpro.Duration.fromTime` succeeding), which is not
part of this repository.  Standard durations are whole down to 64th
(quarter = 960 ticks) together with their dotted variants. -/
def stdDurationTimes : List ℕ :=
  [3840, 1920, 960, 480, 240, 120, 60, 5760, 2880, 1440, 720, 360, 180, 90]

/-- Modelled from the spec: a time is representable when it equals a
standard duration time exactly. -/
def stdRepresentable (t : ℕ) : Bool := decide (t ∈ stdDurationTimes)

/-! ## Properties of the value-set linearizations -/

theorem mem_dedupKeepFirstAux {v : ℕ} :
    ∀ (seen l : List ℕ), v ∈ dedupKeepFirstAux seen l ↔ v ∈ l ∧ v ∉ seen := by
  intro seen l
  induction l generalizing seen with
  | nil => simp [dedupKeepFirstAux]
  | cons a l ih =>
    by_cases ha : a ∈ seen
    · simp only [dedupKeepFirstAux, if_pos ha, ih, List.mem_cons]
      constructor
      · rintro ⟨hl, hs⟩; exact ⟨Or.inr hl, hs⟩
      · rintro ⟨hv | hl, hs⟩
        · exact absurd (hv ▸ ha) hs
        · exact ⟨hl, hs⟩
    · simp only [dedupKeepFirstAux, if_neg ha, List.mem_cons, ih]
      by_cases hva : v = a
      · subst hva
        simp [ha]
      · simp only [hva, false_or]

theorem mem_dedupKeepFirst {v : ℕ} {l : List ℕ} :
    v ∈ dedupKeepFirst l ↔ v ∈ l := by
  simp [dedupKeepFirst, mem_dedupKeepFirstAux]

theorem nodup_dedupKeepFirstAux :
    ∀ (seen l : List ℕ), (dedupKeepFirstAux seen l).Nodup := by
  intro seen l
  induction l generalizing seen with
  | nil => simp [dedupKeepFirstAux]
  | cons a l ih =>
    by_cases ha : a ∈ seen
    · simpa [dedupKeepFirstAux, if_pos ha] using ih seen
    · simp only [dedupKeepFirstAux, if_neg ha, List.nodup_cons]
      refine ⟨fun hmem => ?_, ih (a :: seen)⟩
      exact ((mem_dedupKeepFirstAux _ _).mp hmem).2 (List.mem_cons_self a seen)

theorem nodup_dedupKeepFirst (l : List ℕ) : (dedupKeepFirst l).Nodup :=
  nodup_dedupKeepFirstAux [] l

theorem dedupKeepFirstAux_eq_self :
    ∀ (seen l : List ℕ), l.Nodup → (∀ v ∈ l, v ∉ seen) →
      dedupKeepFirstAux seen l = l := by
  intro seen l
  induction l generalizing seen with
  | nil => intro _ _; rfl
  | cons a l ih =>
    intro hnd hdis
    have ha : a ∉ seen := hdis a (List.mem_cons_self a l)
    rw [dedupKeepFirstAux, if_neg ha]
    congr 1
    refine ih (a :: seen) (List.Nodup.of_cons hnd) ?_
    intro v hv
    simp only [List.mem_cons, not_or]
    exact ⟨fun hva => (List.nodup_cons.mp hnd).1 (hva ▸ hv),
      hdis v (List.mem_cons_of_mem _ hv)⟩

theorem dedupKeepFirst_eq_self {l : List ℕ} (h : l.Nodup) :
    dedupKeepFirst l = l :=
  dedupKeepFirstAux_eq_self [] l h (by simp)

theorem map_value_dedupByValue (l : List Note) :
    (dedupByValue l).map Note.value = dedupKeepFirst (l.map Note.value) := by
  unfold dedupByValue
  generalize hvs : dedupKeepFirst (l.map Note.value) = vs
  have hall : ∀ v ∈ vs, v ∈ l.map Note.value := by
    intro v hv; rw [← hvs] at hv; exact mem_dedupKeepFirst.mp hv
  clear hvs
  induction vs with
  | nil => simp
  | cons v vs ih =>
    have hv : v ∈ l.map Note.value := hall v (List.mem_cons_self v vs)
    obtain ⟨m, hm, hmv⟩ := List.mem_map.mp hv
    have hsome : (l.reverse.find? (fun m => m.value == v)).isSome = true := by
      rw [List.find?_isSome]
      exact ⟨m, List.mem_reverse.mpr hm, by simp [hmv]⟩
    obtain ⟨m', hm'⟩ := Option.isSome_iff_exists.mp hsome
    have hm'v : m'.value = v := by
      have := List.find?_some hm'
      simpa using this
    rw [List.filterMap_cons, hm']
    simp only [List.map_cons, hm'v]
    congr 1
    exact ih (fun u hu => hall u (List.mem_cons_of_mem _ hu))

theorem mem_value_dedupByValue {v : ℕ} {l : List Note} :
    v ∈ (dedupByValue l).map Note.value ↔ v ∈ l.map Note.value := by
  rw [map_value_dedupByValue]; exact mem_dedupKeepFirst

theorem nodup_value_dedupByValue (l : List Note) :
    ((dedupByValue l).map Note.value).Nodup := by
  rw [map_value_dedupByValue]; exact nodup_dedupKeepFirst _

theorem nodup_length_le_of_subset {l r : List ℕ} (h : l.Nodup) (hs : l ⊆ r) :
    l.length ≤ r.length :=
  (List.subperm_of_subset h hs).length_le

theorem length_le_of_value_mem {l : List Note} {r : List ℕ}
    (hnd : (l.map Note.value).Nodup) (h : ∀ n ∈ l, n.value ∈ r) :
    l.length ≤ r.length := by
  have hsub : l.map Note.value ⊆ r := by
    intro v hv
    obtain ⟨n, hn, rfl⟩ := List.mem_map.mp hv
    exact h n hn
  have := nodup_length_le_of_subset hnd hsub
  simpa using this

theorem dedupByValue_eq_self {l : List Note} (h : (l.map Note.value).Nodup) :
    dedupByValue l = l := by
  unfold dedupByValue
  rw [dedupKeepFirst_eq_self h]
  induction l with
  | nil => simp
  | cons n t ih =>
    have hmapcons : Note.value n ∉ t.map Note.value ∧ (t.map Note.value).Nodup := by
      rw [List.map_cons, List.nodup_cons] at h
      exact h
    have hnt : ∀ m ∈ t, m.value ≠ n.value := by
      intro m hm he
      exact hmapcons.1 (he ▸ List.mem_map_of_mem Note.value hm)
    have hfind_head :
        (n :: t).reverse.find? (fun m => m.value == n.value) = some n := by
      rw [List.reverse_cons, List.find?_append]
      have h1 : t.reverse.find? (fun m => m.value == n.value) = none := by
        rw [List.find?_eq_none]
        intro m hm
        simp [hnt m (List.mem_reverse.mp hm)]
      simp [h1]
    have hfind_tail : ∀ v ∈ t.map Note.value,
        (n :: t).reverse.find? (fun m => m.value == v)
          = t.reverse.find? (fun m => m.value == v) := by
      intro v hv
      obtain ⟨m, hm, rfl⟩ := List.mem_map.mp hv
      rw [List.reverse_cons, List.find?_append]
      have h1 : (t.reverse.find? (fun x => x.value == m.value)).isSome = true := by
        rw [List.find?_isSome]
        exact ⟨m, List.mem_reverse.mpr hm, by simp⟩
      obtain ⟨m', hm'⟩ := Option.isSome_iff_exists.mp h1
      simp [hm']
    simp only [List.map_cons, List.filterMap_cons, hfind_head]
    congr 1
    rw [List.filterMap_congr hfind_tail]
    exact ih hmapcons.2

/-! ## The trim loop -/

theorem trimLoop_of_two_le {fuel : ℕ} {nv rv : List ℕ} (h : 2 ≤ rv.length) :
    trimLoop fuel nv rv = rv := by
  cases fuel with
  | zero => rfl
  | succ fuel => simp [trimLoop, Nat.not_lt.mpr h]

theorem exists_hand_candidate {nv rv : List ℕ} (hnv : nv.Nodup)
    (h3 : 3 ≤ (nv.filter (fun v => decide (v ∈ HAND_NOTES))).length)
    (hlen : rv.length < 2) :
    ∃ v ∈ nv, v ∈ HAND_NOTES ∧ v ∉ rv := by
  by_contra hcon
  push_neg at hcon
  have hsub : nv.filter (fun v => decide (v ∈ HAND_NOTES)) ⊆ rv := by
    intro v hv
    have hv1 := List.mem_filter.mp hv
    exact hcon v hv1.1 (by simpa using hv1.2)
  have hnd : (nv.filter (fun v => decide (v ∈ HAND_NOTES))).Nodup :=
    hnv.filter _
  have := nodup_length_le_of_subset hnd hsub
  omega

theorem trimLoop_succ_lt {fuel : ℕ} {nv rv : List ℕ} (h : rv.length < 2) :
    trimLoop (fuel + 1) nv rv = trimLoop fuel nv (trimStep nv rv) := by
  simp [trimLoop, h]

theorem hand_eq_toms_or_cymbals {v : ℕ} :
    v ∈ HAND_NOTES ↔ v ∈ TOMS ∨ v ∈ CYMBALS := by
  simp [HAND_NOTES]

theorem nodup_snoc {l : List ℕ} {a : ℕ} (h : l.Nodup) (ha : a ∉ l) :
    (l ++ [a]).Nodup := by
  rw [List.nodup_append]
  refine ⟨h, List.nodup_singleton a, ?_⟩
  intro x hx hxa
  exact ha ((List.mem_singleton.mp hxa) ▸ hx)

theorem trimStep_spec {nv rv : List ℕ} (hnv : nv.Nodup)
    (h3 : 3 ≤ (nv.filter (fun v => decide (v ∈ HAND_NOTES))).length)
    (hrnd : rv.Nodup) (hlen : rv.length < 2) :
    (trimStep nv rv).Nodup ∧
    rv.length < (trimStep nv rv).length ∧
    (trimStep nv rv).length ≤ 2 ∧
    (∀ v ∈ rv, v ∈ trimStep nv rv) ∧
    (∀ v ∈ trimStep nv rv, v ∈ rv ∨ (v ∈ nv ∧ v ∈ HAND_NOTES)) := by
  obtain ⟨w, hwnv, hwhand, hwrv⟩ := exists_hand_candidate hnv h3 hlen
  unfold trimStep
  cases hc : nv.find? (fun v => decide (v ∈ CYMBALS ∧ v ∉ rv)) with
  | some c =>
    have hcp := List.find?_some hc
    have hcnv := List.mem_of_find?_eq_some hc
    rw [decide_eq_true_iff] at hcp
    obtain ⟨hccym, hcrv⟩ := hcp
    have hnd1 : (rv ++ [c]).Nodup := nodup_snoc hrnd hcrv
    have hmem1 : ∀ v ∈ rv ++ [c], v ∈ rv ∨ (v ∈ nv ∧ v ∈ HAND_NOTES) := by
      intro v hv
      rcases List.mem_append.mp hv with hv | hv
      · exact Or.inl hv
      · rw [List.mem_singleton] at hv
        exact Or.inr ⟨hv ▸ hcnv,
          hv ▸ hand_eq_toms_or_cymbals.mpr (Or.inr hccym)⟩
    simp only
    by_cases h1 : (rv ++ [c]).length < 2
    · rw [if_pos h1]
      cases ht : nv.find? (fun v => decide (v ∈ TOMS ∧ v ∉ rv ++ [c])) with
      | some t =>
        have htp := List.find?_some ht
        have htnv := List.mem_of_find?_eq_some ht
        rw [decide_eq_true_iff] at htp
        obtain ⟨httom, htrv⟩ := htp
        have hnd2 : (rv ++ [c] ++ [t]).Nodup := nodup_snoc hnd1 htrv
        refine ⟨hnd2, ?_, ?_, ?_, ?_⟩
        · simp only [List.length_append, List.length_singleton]
          omega
        · simp only [List.length_append, List.length_singleton] at h1 ⊢
          omega
        · intro v hv
          simp [List.mem_append, hv]
        · intro v hv
          rcases List.mem_append.mp hv with hv | hv
          · exact hmem1 v hv
          · rw [List.mem_singleton] at hv
            exact Or.inr ⟨hv ▸ htnv,
              hv ▸ hand_eq_toms_or_cymbals.mpr (Or.inl httom)⟩
      | none =>
        refine ⟨hnd1, ?_, ?_, ?_, hmem1⟩
        · simp only [List.length_append, List.length_singleton]
          omega
        · simp only [List.length_append, List.length_singleton] at h1 ⊢
          omega
        · intro v hv
          simp [List.mem_append, hv]
    · rw [if_neg h1]
      refine ⟨hnd1, ?_, ?_, ?_, hmem1⟩
      · simp only [List.length_append, List.length_singleton]
        omega
      · simp only [List.length_append, List.length_singleton] at h1 ⊢
        omega
      · intro v hv
        simp [List.mem_append, hv]
  | none =>
    have hnone := List.find?_eq_none.mp hc
    have hwtom : w ∈ TOMS := by
      rcases hand_eq_toms_or_cymbals.mp hwhand with h | h
      · exact h
      · exact absurd (by simp [h, hwrv]) (hnone w hwnv)
    simp only
    rw [if_pos hlen]
    cases ht : nv.find? (fun v => decide (v ∈ TOMS ∧ v ∉ rv)) with
    | some t =>
      have htp := List.find?_some ht
      have htnv := List.mem_of_find?_eq_some ht
      rw [decide_eq_true_iff] at htp
      obtain ⟨httom, htrv⟩ := htp
      have hnd1 : (rv ++ [t]).Nodup := nodup_snoc hrnd htrv
      refine ⟨hnd1, ?_, ?_, ?_, ?_⟩
      · simp only [List.length_append, List.length_singleton]
        omega
      · simp only [List.length_append, List.length_singleton]
        omega
      · intro v hv
        simp [List.mem_append, hv]
      · intro v hv
        rcases List.mem_append.mp hv with hv | hv
        · exact Or.inl hv
        · rw [List.mem_singleton] at hv
          exact Or.inr ⟨hv ▸ htnv,
            hv ▸ hand_eq_toms_or_cymbals.mpr (Or.inl httom)⟩
    | none =>
      have hnone2 := List.find?_eq_none.mp ht
      exact absurd (by simp [hwtom, hwrv]) (hnone2 w hwnv)

theorem trimLoop_spec {nv : List ℕ} (hnv : nv.Nodup)
    (h3 : 3 ≤ (nv.filter (fun v => decide (v ∈ HAND_NOTES))).length) :
    ∀ (fuel : ℕ) (rv : List ℕ), rv.Nodup → rv.length ≤ 2 →
      2 ≤ rv.length + fuel →
      (trimLoop fuel nv rv).length = 2 ∧
      (trimLoop fuel nv rv).Nodup ∧
      (∀ v ∈ rv, v ∈ trimLoop fuel nv rv) ∧
      (∀ v ∈ trimLoop fuel nv rv, v ∈ rv ∨ (v ∈ nv ∧ v ∈ HAND_NOTES)) := by
  intro fuel
  induction fuel with
  | zero =>
    intro rv hrnd hle hge
    have h2 : rv.length = 2 := by omega
    exact ⟨h2, hrnd, fun v hv => hv, fun v hv => Or.inl hv⟩
  | succ fuel ih =>
    intro rv hrnd hle hge
    by_cases hlen : rv.length < 2
    · rw [trimLoop_succ_lt hlen]
      obtain ⟨hsnd, hgrow, hsle, hkeep, hsrc⟩ := trimStep_spec hnv h3 hrnd hlen
      obtain ⟨ha, hb, hc, hd⟩ := ih (trimStep nv rv) hsnd hsle (by omega)
      refine ⟨ha, hb, fun v hv => hc v (hkeep v hv), ?_⟩
      intro v hv
      rcases hd v hv with hv' | hv'
      · exact hsrc v hv'
      · exact Or.inr hv'
    · rw [trimLoop, if_neg hlen]
      exact ⟨by omega, hrnd, fun v hv => hv, fun v hv => Or.inl hv⟩

theorem trimSeed_of_49_38 {nv : List ℕ} (h49 : 49 ∈ nv) (h38 : 38 ∈ nv) :
    trimSeed nv = [38, 49] := by
  simp [trimSeed, if_pos h49, if_pos h38, rvInsert]

theorem trimSeed_of_49_no38 {nv : List ℕ} (h49 : 49 ∈ nv) (h38 : 38 ∉ nv) :
    trimSeed nv = [49] := by
  simp only [trimSeed, if_pos h49, if_neg h38, rvInsert]
  norm_num

theorem trimSeed_of_57_38 {nv : List ℕ} (h49 : 49 ∉ nv) (h57 : 57 ∈ nv)
    (h38 : 38 ∈ nv) : trimSeed nv = [38, 49] := by
  simp [trimSeed, if_neg h49, if_pos h38, if_pos h57, rvInsert]

theorem trimSeed_of_57_no38 {nv : List ℕ} (h49 : 49 ∉ nv) (h57 : 57 ∈ nv)
    (h38 : 38 ∉ nv) : trimSeed nv = [49] := by
  simp [trimSeed, if_neg h49, if_neg h38, if_pos h57, rvInsert]

theorem trimSeed_of_no57 {nv : List ℕ} (h49 : 49 ∉ nv) (h57 : 57 ∉ nv) :
    trimSeed nv = if 38 ∈ nv then [38] else [] := by
  simp [trimSeed, if_neg h49, h57]

theorem trimKeptValues_of_gt {nv : List ℕ}
    (h3 : 2 < (nv.filter (fun v => decide (v ∈ HAND_NOTES))).length) :
    trimKeptValues nv = trimLoop (nv.length + 2) nv (trimSeed nv) := by
  simp only [trimKeptValues]
  rw [if_pos h3]

theorem trimKeptValues_of_le {nv : List ℕ}
    (h3 : ¬ 2 < (nv.filter (fun v => decide (v ∈ HAND_NOTES))).length) :
    trimKeptValues nv = nv.filter (fun v => decide (v ∈ HAND_NOTES)) := by
  simp only [trimKeptValues]
  rw [if_neg h3]

theorem trimKeptValues_spec {nv : List ℕ} (hnv : nv.Nodup)
    (h3 : 2 < (nv.filter (fun v => decide (v ∈ HAND_NOTES))).length) :
    (trimKeptValues nv).length = 2 ∧
    (trimKeptValues nv).Nodup ∧
    (∀ v ∈ trimKeptValues nv, v ∈ HAND_NOTES) ∧
    (∀ v ∈ trimKeptValues nv, v ∈ nv ∨ v = 49) ∧
    (38 ∈ nv → 38 ∈ trimKeptValues nv) ∧
    (49 ∈ nv → 49 ∈ trimKeptValues nv) ∧
    ((49 ∈ nv ∨ 57 ∉ nv) → ∀ v ∈ trimKeptValues nv, v ∈ nv) ∧
    (57 ∈ nv ∧ 49 ∉ nv →
      ((trimKeptValues nv).filter (fun v => decide (v ∈ nv))).length = 1) := by
  have h3' : 3 ≤ (nv.filter (fun v => decide (v ∈ HAND_NOTES))).length := h3
  rw [trimKeptValues_of_gt h3]
  by_cases h49 : 49 ∈ nv
  · by_cases h38 : 38 ∈ nv
    · -- seed is [38, 49], already of length two
      rw [trimSeed_of_49_38 h49 h38, trimLoop_of_two_le (by norm_num)]
      refine ⟨rfl, by decide, ?_, ?_, ?_, ?_, ?_, ?_⟩
      · intro v hv
        rcases List.mem_cons.mp hv with rfl | hv
        · decide
        · rw [List.mem_singleton] at hv
          subst hv; decide
      · intro v hv
        rcases List.mem_cons.mp hv with rfl | hv
        · exact Or.inl h38
        · rw [List.mem_singleton] at hv
          exact Or.inr hv
      · intro _; exact List.mem_cons_self 38 [49]
      · intro _; simp
      · intro _ v hv
        rcases List.mem_cons.mp hv with rfl | hv
        · exact h38
        · rw [List.mem_singleton] at hv
          exact hv ▸ h49
      · rintro ⟨-, hno49⟩
        exact absurd h49 hno49
    · -- seed is [49]; the loop adds exactly one further hand value
      rw [trimSeed_of_49_no38 h49 h38]
      obtain ⟨ha, hb, hc, hd⟩ :=
        trimLoop_spec hnv h3' (nv.length + 2) [49] (by decide) (by decide)
          (by omega)
      have hmem : ∀ v ∈ trimLoop (nv.length + 2) nv [49], v ∈ nv := by
        intro v hv
        rcases hd v hv with hv' | hv'
        · rw [List.mem_singleton] at hv'
          exact hv' ▸ h49
        · exact hv'.1
      refine ⟨ha, hb, ?_, fun v hv => Or.inl (hmem v hv), ?_, ?_, fun _ => hmem, ?_⟩
      · intro v hv
        rcases hd v hv with hv' | hv'
        · rw [List.mem_singleton] at hv'
          subst hv'; decide
        · exact hv'.2
      · intro h38'
        exact absurd h38' h38
      · intro _
        exact hc 49 (List.mem_singleton_self 49)
      · rintro ⟨-, hno49⟩
        exact absurd h49 hno49
  · by_cases h57 : 57 ∈ nv
    · by_cases h38 : 38 ∈ nv
      · -- seed is [38, 49]; 49 has no matching note
        rw [trimSeed_of_57_38 h49 h57 h38, trimLoop_of_two_le (by norm_num)]
        refine ⟨rfl, by decide, ?_, ?_, ?_, ?_, ?_, ?_⟩
        · intro v hv
          rcases List.mem_cons.mp hv with rfl | hv
          · decide
          · rw [List.mem_singleton] at hv
            subst hv; decide
        · intro v hv
          rcases List.mem_cons.mp hv with rfl | hv
          · exact Or.inl h38
          · rw [List.mem_singleton] at hv
            exact Or.inr hv
        · intro _; exact List.mem_cons_self 38 [49]
        · intro h49'; exact absurd h49' h49
        · rintro (h49' | h57')
          · exact absurd h49' h49
          · exact absurd h57 h57'
        · rintro ⟨-, -⟩
          have : List.filter (fun v => decide (v ∈ nv)) [38, 49] = [38] := by
            rw [show ([38, 49] : List ℕ) = [38] ++ [49] from rfl,
              List.filter_append]
            simp [decide_eq_true h38, decide_eq_false h49]
          rw [this, List.length_singleton]
      · -- seed is [49]; one unfolding of the loop appends one cymbal
        rw [trimSeed_of_57_no38 h49 h57 h38]
        have hstep : ∃ c, c ∈ nv ∧ c ∈ CYMBALS ∧ c ≠ 49 ∧
            trimStep nv [49] = [49, c] := by
          unfold trimStep
          cases hc : nv.find? (fun v => decide (v ∈ CYMBALS ∧ v ∉ [49])) with
          | some c =>
            have hcp := List.find?_some hc
            have hcnv := List.mem_of_find?_eq_some hc
            rw [decide_eq_true_iff] at hcp
            obtain ⟨hccym, hcrv⟩ := hcp
            have hc49 : c ≠ 49 := by
              intro h
              apply hcrv
              rw [h]
              exact List.mem_singleton_self 49
            exact ⟨c, hcnv, hccym, hc49, by norm_num⟩
          | none =>
            have hnone := List.find?_eq_none.mp hc
            exact absurd (by decide : decide ((57 : ℕ) ∈ CYMBALS ∧ 57 ∉ ([49] : List ℕ)) = true)
              (hnone 57 h57)
        obtain ⟨c, hcnv, hccym, hc49, hstep⟩ := hstep
        have he : nv.length + 2 = nv.length + 1 + 1 := rfl
        rw [he, trimLoop_succ_lt (by norm_num), hstep,
          trimLoop_of_two_le (by norm_num)]
        refine ⟨rfl, ?_, ?_, ?_, ?_, ?_, ?_, ?_⟩
        · simp [List.nodup_cons, Ne.symm hc49]
        · intro v hv
          rcases List.mem_cons.mp hv with rfl | hv
          · decide
          · rw [List.mem_singleton] at hv
            subst hv
            exact hand_eq_toms_or_cymbals.mpr (Or.inr hccym)
        · intro v hv
          rcases List.mem_cons.mp hv with rfl | hv
          · exact Or.inr rfl
          · rw [List.mem_singleton] at hv
            exact Or.inl (hv ▸ hcnv)
        · intro h38'; exact absurd h38' h38
        · intro h49'; exact absurd h49' h49
        · rintro (h49' | h57')
          · exact absurd h49' h49
          · exact absurd h57 h57'
        · rintro ⟨-, -⟩
          have : List.filter (fun v => decide (v ∈ nv)) [49, c] = [c] := by
            rw [show ([49, c] : List ℕ) = [49] ++ [c] from rfl,
              List.filter_append]
            simp [decide_eq_true hcnv, decide_eq_false h49]
          rw [this, List.length_singleton]
    · -- no 49 and no 57: the seed is contained in nv
      rw [trimSeed_of_no57 h49 h57]
      have hseed : ∀ r : List ℕ, r = (if 38 ∈ nv then [38] else []) →
          r.Nodup ∧ r.length ≤ 2 ∧ (∀ v ∈ r, v ∈ nv) ∧ (38 ∈ nv → 38 ∈ r) := by
        intro r hr
        by_cases h38 : 38 ∈ nv
        · rw [if_pos h38] at hr
          subst hr
          exact ⟨by decide, by decide, fun v hv => by
            rw [List.mem_singleton] at hv
            exact hv ▸ h38, fun _ => List.mem_singleton_self 38⟩
        · rw [if_neg h38] at hr
          subst hr
          exact ⟨by decide, by decide, by simp, fun h => absurd h h38⟩
      obtain ⟨hsnd, hsle, hsnv, hs38⟩ := hseed _ rfl
      obtain ⟨ha, hb, hc, hd⟩ :=
        trimLoop_spec hnv h3' (nv.length + 2) _ hsnd hsle (by omega)
      have hmem : ∀ v ∈ trimLoop (nv.length + 2) nv
          (if 38 ∈ nv then [38] else []), v ∈ nv := by
        intro v hv
        rcases hd v hv with hv' | hv'
        · exact hsnv v hv'
        · exact hv'.1
      refine ⟨ha, hb, ?_, fun v hv => Or.inl (hmem v hv), ?_, ?_,
        fun _ => hmem, ?_⟩
      · intro v hv
        rcases hd v hv with hv' | hv'
        · by_cases h38 : 38 ∈ nv
          · rw [if_pos h38] at hv'
            rw [List.mem_singleton] at hv'
            subst hv'
            decide
          · rw [if_neg h38] at hv'
            exact absurd hv' (List.not_mem_nil v)
        · exact hv'.2
      · intro h38'
        exact hc 38 (by rw [if_pos h38']; exact List.mem_singleton_self 38)
      · intro h49'
        exact absurd h49' h49
      · rintro ⟨h57', -⟩
        exact absurd h57' h57

theorem value_mem_values {notes : List Note} {n : Note} (h : n ∈ notes) :
    n.value ∈ dedupKeepFirst (notes.map Note.value) :=
  mem_dedupKeepFirst.mpr (List.mem_map_of_mem Note.value h)

theorem trimNoteValues_sublist (notes : List Note) :
    (trimNoteValues notes).Sublist notes := by
  simp only [trimNoteValues]
  exact List.filter_sublist _

theorem mem_trimNoteValues {notes : List Note} {n : Note} :
    n ∈ trimNoteValues notes ↔ n ∈ notes ∧
      (n.value ∈ trimKeptValues (dedupKeepFirst (notes.map Note.value)) ∨
       (n.value ∈ dedupKeepFirst (notes.map Note.value) ∧
        n.value ∉ HAND_NOTES)) := by
  simp only [trimNoteValues, List.mem_filter, decide_eq_true_iff,
    List.mem_append]

theorem trimNoteValues_eq_self {notes : List Note}
    (h : ¬ 2 < ((dedupKeepFirst (notes.map Note.value)).filter
      (fun v => decide (v ∈ HAND_NOTES))).length) :
    trimNoteValues notes = notes := by
  simp only [trimNoteValues]
  rw [trimKeptValues_of_le h, List.filter_eq_self]
  intro n hn
  rw [decide_eq_true_iff, List.mem_append]
  by_cases hhand : n.value ∈ HAND_NOTES
  · exact Or.inl (List.mem_filter.mpr
      ⟨value_mem_values hn, decide_eq_true hhand⟩)
  · exact Or.inr (List.mem_filter.mpr
      ⟨value_mem_values hn, decide_eq_true hhand⟩)

theorem trim_hand_count_le_two {notes : List Note}
    (hnd : (notes.map Note.value).Nodup) :
    ((trimNoteValues notes).filter
      (fun n => decide (n.value ∈ HAND_NOTES))).length ≤ 2 := by
  by_cases h3 : 2 < ((dedupKeepFirst (notes.map Note.value)).filter
      (fun v => decide (v ∈ HAND_NOTES))).length
  · obtain ⟨hlen2, -, -, -, -, -, -, -⟩ :=
      trimKeptValues_spec (nodup_dedupKeepFirst _) h3
    have hvals : ∀ n ∈ (trimNoteValues notes).filter
        (fun n => decide (n.value ∈ HAND_NOTES)),
        n.value ∈ trimKeptValues (dedupKeepFirst (notes.map Note.value)) := by
      intro n hn
      have hn1 := List.mem_filter.mp hn
      have hhand : n.value ∈ HAND_NOTES := by simpa using hn1.2
      rcases (mem_trimNoteValues.mp hn1.1).2 with h | h
      · exact h
      · exact absurd hhand h.2
    have hsub : ((trimNoteValues notes).filter
        (fun n => decide (n.value ∈ HAND_NOTES))).Sublist notes :=
      (List.filter_sublist _).trans (trimNoteValues_sublist notes)
    have hnd2 : ((((trimNoteValues notes).filter
        (fun n => decide (n.value ∈ HAND_NOTES)))).map Note.value).Nodup :=
      (hsub.map Note.value).nodup hnd
    calc ((trimNoteValues notes).filter
          (fun n => decide (n.value ∈ HAND_NOTES))).length
        ≤ (trimKeptValues (dedupKeepFirst (notes.map Note.value))).length :=
          length_le_of_value_mem hnd2 hvals
      _ = 2 := hlen2
  · rw [trimNoteValues_eq_self h3]
    have hvals : ∀ n ∈ notes.filter (fun n => decide (n.value ∈ HAND_NOTES)),
        n.value ∈ (dedupKeepFirst (notes.map Note.value)).filter
          (fun v => decide (v ∈ HAND_NOTES)) := by
      intro n hn
      have hn1 := List.mem_filter.mp hn
      exact List.mem_filter.mpr ⟨value_mem_values hn1.1, hn1.2⟩
    have hnd2 : ((notes.filter
        (fun n => decide (n.value ∈ HAND_NOTES))).map Note.value).Nodup :=
      ((List.filter_sublist _).map Note.value).nodup hnd
    have := length_le_of_value_mem hnd2 hvals
    omega

/-! ## Placement and simplification -/

theorem placeNote_value (n : Note) (nv : List ℕ) :
    (placeNote n nv).value = n.value := by
  unfold placeNote
  split_ifs <;> rfl

theorem map_value_place (l : List Note) (nv : List ℕ) :
    (l.map (fun n => placeNote n nv)).map Note.value = l.map Note.value := by
  rw [List.map_map]
  exact List.map_congr_left fun n _ => placeNote_value n nv

theorem simplifyNote_value_ne (n : Note) :
    (simplifyNote n).value ≠ 35 ∧ (simplifyNote n).value ≠ 40 ∧
    (simplifyNote n).value ≠ 59 := by
  unfold simplifyNote
  split_ifs with h1 h2 h3 <;> simp_all

theorem simplifyNote_eq_self {n : Note} (h35 : n.value ≠ 35)
    (h40 : n.value ≠ 40) (h59 : n.value ≠ 59) : simplifyNote n = n := by
  unfold simplifyNote
  rw [if_neg h35, if_neg h40, if_neg h59]

theorem placeNote_idem (n : Note) (nv : List ℕ) :
    placeNote (placeNote n nv) nv = placeNote n nv := by
  by_cases h36 : n.value = 36
  · simp [placeNote, h36]
  by_cases h38 : n.value = 38
  · simp [placeNote, h36, h38]
  by_cases h44 : n.value = 44
  · simp [placeNote, h36, h38, h44]
  by_cases h49 : n.value = 49
  · simp [placeNote, h36, h38, h44, h49]
  by_cases hcym : n.value ∈ CYMBALS
  · by_cases hany : ∃ x ∈ nv, x ∈ CYMBALS ∧ (x < n.value ∨ x = 49)
    · simp [placeNote, h36, h38, h44, h49, hcym, hany]
    · simp [placeNote, h36, h38, h44, h49, hcym, hany]
  by_cases htom : n.value ∈ TOMS
  · by_cases hany : ∃ x ∈ nv, x ∈ TOMS ∧ (x < n.value ∨ x = 38)
    · simp [placeNote, h36, h38, h44, h49, hcym, htom, hany]
    · simp [placeNote, h36, h38, h44, h49, hcym, htom, hany]
  · simp [placeNote, h36, h38, h44, h49, hcym, htom]

theorem filter_hand_values_length (l : List Note) :
    ((l.map Note.value).filter (fun v => decide (v ∈ HAND_NOTES))).length
      = (l.filter (fun n => decide (n.value ∈ HAND_NOTES))).length := by
  rw [← List.countP_eq_length_filter, ← List.countP_eq_length_filter,
    List.countP_map]
  rfl

/-! ## The standardizer, per beat -/

theorem standardizeBeat_of_isEmpty_false {notes : List Note}
    (h : notes.isEmpty = false) :
    standardizeBeat notes =
      (trimNoteValues (dedupByValue (notes.map simplifyNote))).map
        (fun n => placeNote n (dedupKeepFirst
          ((trimNoteValues (dedupByValue (notes.map simplifyNote))).map
            Note.value))) := by
  simp only [standardizeBeat, h, Bool.false_eq_true, if_false]

theorem standardizeBeat_values_nodup (notes : List Note) :
    ((standardizeBeat notes).map Note.value).Nodup := by
  cases he : notes.isEmpty with
  | true =>
    rw [List.isEmpty_iff.mp he]
    simp [standardizeBeat]
  | false =>
    rw [standardizeBeat_of_isEmpty_false he, map_value_place]
    exact ((trimNoteValues_sublist _).map Note.value).nodup
      (nodup_value_dedupByValue _)

theorem standardizeBeat_hand_le_two (notes : List Note) :
    ((standardizeBeat notes).filter
      (fun n => decide (n.value ∈ HAND_NOTES))).length ≤ 2 := by
  cases he : notes.isEmpty with
  | true =>
    rw [List.isEmpty_iff.mp he]
    simp [standardizeBeat]
  | false =>
    rw [standardizeBeat_of_isEmpty_false he]
    rw [← List.countP_eq_length_filter, List.countP_map]
    have hcongr : List.countP
        ((fun n => decide (n.value ∈ HAND_NOTES)) ∘
          (fun n => placeNote n (dedupKeepFirst
            ((trimNoteValues (dedupByValue (notes.map simplifyNote))).map
              Note.value))))
        (trimNoteValues (dedupByValue (notes.map simplifyNote)))
        = List.countP (fun n => decide (n.value ∈ HAND_NOTES))
          (trimNoteValues (dedupByValue (notes.map simplifyNote))) := by
      apply List.countP_congr
      intro n _
      simp [Function.comp, placeNote_value]
    rw [hcongr, List.countP_eq_length_filter]
    exact trim_hand_count_le_two (nodup_value_dedupByValue _)

theorem standardizeBeat_idem (notes : List Note) :
    standardizeBeat (standardizeBeat notes) = standardizeBeat notes := by
  cases he : notes.isEmpty with
  | true =>
    rw [List.isEmpty_iff.mp he]
    rfl
  | false =>
    rw [standardizeBeat_of_isEmpty_false he]
    set s := dedupByValue (notes.map simplifyNote) with hs
    set t := trimNoteValues s with ht
    set nv := dedupKeepFirst (t.map Note.value) with hnv
    set p := t.map (fun n => placeNote n nv) with hp
    have htnd : (t.map Note.value).Nodup :=
      ((trimNoteValues_sublist s).map Note.value).nodup
        (nodup_value_dedupByValue _)
    have hpv : p.map Note.value = t.map Note.value := map_value_place t nv
    have hpnd : (p.map Note.value).Nodup := by
      rw [hpv]; exact htnd
    have hno : ∀ n ∈ p, n.value ≠ 35 ∧ n.value ≠ 40 ∧ n.value ≠ 59 := by
      intro n hn
      have hv : n.value ∈ p.map Note.value := List.mem_map_of_mem Note.value hn
      rw [hpv] at hv
      have hv2 : n.value ∈ s.map Note.value :=
        ((trimNoteValues_sublist s).map Note.value).subset hv
      rw [hs, mem_value_dedupByValue, List.map_map] at hv2
      obtain ⟨k, -, hk⟩ := List.mem_map.mp hv2
      have := simplifyNote_value_ne k
      rw [Function.comp_apply] at hk
      rw [← hk]
      exact this
    cases hpe : p.isEmpty with
    | true =>
      rw [List.isEmpty_iff.mp hpe]
      rfl
    | false =>
      rw [standardizeBeat_of_isEmpty_false hpe]
      have h1 : p.map simplifyNote = p := by
        refine (List.map_congr_left ?_).trans (List.map_id p)
        intro n hn
        obtain ⟨h35, h40, h59⟩ := hno n hn
        exact simplifyNote_eq_self h35 h40 h59
      rw [h1]
      have h2 : dedupByValue p = p := dedupByValue_eq_self hpnd
      rw [h2]
      have hhand : ¬ 2 < ((dedupKeepFirst (p.map Note.value)).filter
          (fun v => decide (v ∈ HAND_NOTES))).length := by
        rw [dedupKeepFirst_eq_self hpnd, hpv, filter_hand_values_length]
        have := @trim_hand_count_le_two s (nodup_value_dedupByValue _)
        rw [← ht] at this
        omega
      have h3 : trimNoteValues p = p := trimNoteValues_eq_self hhand
      rw [h3]
      have h4 : dedupKeepFirst (p.map Note.value) = nv := by
        rw [hpv, dedupKeepFirst_eq_self htnd, hnv, dedupKeepFirst_eq_self htnd]
      rw [h4, hp, List.map_map]
      exact List.map_congr_left fun n _ => placeNote_idem n nv

/-! ## Lane values per category -/

theorem placeNote_string_36 {n : Note} (h : n.value = 36) (nv : List ℕ) :
    (placeNote n nv).string = 5 := by
  simp [placeNote, h]

theorem placeNote_string_38 {n : Note} (h : n.value = 38) (nv : List ℕ) :
    (placeNote n nv).string = 3 := by
  simp [placeNote, h]

theorem placeNote_string_44 {n : Note} (h : n.value = 44) (nv : List ℕ) :
    (placeNote n nv).string = 6 := by
  simp [placeNote, h]

theorem placeNote_string_49 {n : Note} (h : n.value = 49) (nv : List ℕ) :
    (placeNote n nv).string = 1 := by
  simp [placeNote, h]

theorem mem_cymbals_ne : ∀ v ∈ CYMBALS, v ≠ 36 ∧ v ≠ 38 := by
  decide

theorem mem_toms_ne : ∀ v ∈ TOMS, v ≠ 36 ∧ v ≠ 44 ∧ v ≠ 49 ∧ v ∉ CYMBALS := by
  decide

theorem placeNote_string_cymbal {n : Note} {nv : List ℕ}
    (hc : n.value ∈ CYMBALS) (h44 : n.value ≠ 44) (h49 : n.value ≠ 49) :
    (placeNote n nv).string =
      if ∃ x ∈ nv, x ∈ CYMBALS ∧ (x < n.value ∨ x = 49) then 2 else 1 := by
  obtain ⟨h36, h38⟩ := mem_cymbals_ne _ hc
  by_cases hany : ∃ x ∈ nv, x ∈ CYMBALS ∧ (x < n.value ∨ x = 49)
  · simp [placeNote, h36, h38, h44, h49, hc, hany]
  · simp [placeNote, h36, h38, h44, h49, hc, hany]

theorem placeNote_string_tom {n : Note} {nv : List ℕ}
    (ht : n.value ∈ TOMS) (h38 : n.value ≠ 38) :
    (placeNote n nv).string =
      if ∃ x ∈ nv, x ∈ TOMS ∧ (x < n.value ∨ x = 38) then 4 else 3 := by
  obtain ⟨h36, h44, h49, hcym⟩ := mem_toms_ne _ ht
  by_cases hany : ∃ x ∈ nv, x ∈ TOMS ∧ (x < n.value ∨ x = 38)
  · simp [placeNote, h36, h38, h44, h49, hcym, ht, hany]
  · simp [placeNote, h36, h38, h44, h49, hcym, ht, hany]

theorem recognized_cases {v : ℕ} (h : v = 36 ∨ v ∈ HAND_NOTES) :
    v = 36 ∨ v = 38 ∨ v = 44 ∨ v = 49 ∨
    (v ∈ CYMBALS ∧ v ≠ 44 ∧ v ≠ 49) ∨ (v ∈ TOMS ∧ v ≠ 38) := by
  rcases h with rfl | h
  · exact Or.inl rfl
  rcases hand_eq_toms_or_cymbals.mp h with h | h
  · by_cases h38 : v = 38
    · exact Or.inr (Or.inl h38)
    · exact Or.inr (Or.inr (Or.inr (Or.inr (Or.inr ⟨h, h38⟩))))
  · by_cases h44 : v = 44
    · exact Or.inr (Or.inr (Or.inl h44))
    · by_cases h49 : v = 49
      · exact Or.inr (Or.inr (Or.inr (Or.inl h49)))
      · exact Or.inr (Or.inr (Or.inr (Or.inr (Or.inl ⟨h, h44, h49⟩))))

theorem three_hand_gt_two {nv : List ℕ}
    {x y z : ℕ} (hx : x ∈ nv) (hy : y ∈ nv) (hz : z ∈ nv)
    (hxh : x ∈ HAND_NOTES) (hyh : y ∈ HAND_NOTES) (hzh : z ∈ HAND_NOTES)
    (hxy : x ≠ y) (hxz : x ≠ z) (hyz : y ≠ z)
    (hle : (nv.filter (fun v => decide (v ∈ HAND_NOTES))).length ≤ 2) :
    False := by
  have hsub : [x, y, z] ⊆ nv.filter (fun v => decide (v ∈ HAND_NOTES)) := by
    intro a ha
    rcases List.mem_cons.mp ha with rfl | ha
    · exact List.mem_filter.mpr ⟨hx, decide_eq_true hxh⟩
    rcases List.mem_cons.mp ha with rfl | ha
    · exact List.mem_filter.mpr ⟨hy, decide_eq_true hyh⟩
    rw [List.mem_singleton] at ha
    subst ha
    exact List.mem_filter.mpr ⟨hz, decide_eq_true hzh⟩
  have hnd3 : ([x, y, z] : List ℕ).Nodup := by
    simp [hxy, hxz, hyz]
  have := nodup_length_le_of_subset hnd3 hsub
  simp only [List.length_cons, List.length_nil] at this
  omega

theorem cymbal_mem_hand {v : ℕ} (h : v ∈ CYMBALS) : v ∈ HAND_NOTES :=
  hand_eq_toms_or_cymbals.mpr (Or.inr h)

theorem tom_mem_hand {v : ℕ} (h : v ∈ TOMS) : v ∈ HAND_NOTES :=
  hand_eq_toms_or_cymbals.mpr (Or.inl h)

theorem cymbal_pair_no_witness {nv : List ℕ}
    (hhand : (nv.filter (fun v => decide (v ∈ HAND_NOTES))).length ≤ 2)
    {u v : ℕ} (hu : u ∈ nv) (hv : v ∈ nv)
    (hucym : u ∈ CYMBALS) (hvcym : v ∈ CYMBALS)
    (hu49 : u ≠ 49) (hv49 : v ≠ 49) (hlt : u < v) :
    ¬ ∃ x ∈ nv, x ∈ CYMBALS ∧ (x < u ∨ x = 49) := by
  rintro ⟨x, hx, hxcym, hxlt | rfl⟩
  · exact three_hand_gt_two hx hu hv (cymbal_mem_hand hxcym)
      (cymbal_mem_hand hucym) (cymbal_mem_hand hvcym)
      (by omega) (by omega) (by omega) hhand
  · exact three_hand_gt_two hx hu hv (cymbal_mem_hand hxcym)
      (cymbal_mem_hand hucym) (cymbal_mem_hand hvcym)
      (Ne.symm hu49) (Ne.symm hv49) (by omega) hhand

theorem tom_pair_no_witness {nv : List ℕ}
    (hhand : (nv.filter (fun v => decide (v ∈ HAND_NOTES))).length ≤ 2)
    {u v : ℕ} (hu : u ∈ nv) (hv : v ∈ nv)
    (hutom : u ∈ TOMS) (hvtom : v ∈ TOMS)
    (hu38 : u ≠ 38) (hv38 : v ≠ 38) (hlt : u < v) :
    ¬ ∃ x ∈ nv, x ∈ TOMS ∧ (x < u ∨ x = 38) := by
  rintro ⟨x, hx, hxtom, hxlt | rfl⟩
  · exact three_hand_gt_two hx hu hv (tom_mem_hand hxtom)
      (tom_mem_hand hutom) (tom_mem_hand hvtom)
      (by omega) (by omega) (by omega) hhand
  · exact three_hand_gt_two hx hu hv (tom_mem_hand hxtom)
      (tom_mem_hand hutom) (tom_mem_hand hvtom)
      (Ne.symm hu38) (Ne.symm hv38) (by omega) hhand

theorem place_string_injective {nv : List ℕ}
    (hhand : (nv.filter (fun v => decide (v ∈ HAND_NOTES))).length ≤ 2)
    {a b : Note} (ha : a.value ∈ nv) (hb : b.value ∈ nv)
    (hne : a.value ≠ b.value)
    (hra : a.value = 36 ∨ a.value ∈ HAND_NOTES)
    (hrb : b.value = 36 ∨ b.value ∈ HAND_NOTES) :
    (placeNote a nv).string ≠ (placeNote b nv).string := by
  rcases recognized_cases hra with
    ha36 | ha38 | ha44 | ha49 | ⟨hacym, ha44n, ha49n⟩ | ⟨hatom, ha38n⟩ <;>
    rcases recognized_cases hrb with
      hb36 | hb38 | hb44 | hb49 | ⟨hbcym, hb44n, hb49n⟩ | ⟨hbtom, hb38n⟩
  · exact absurd (ha36.trans hb36.symm) hne
  · rw [placeNote_string_36 ha36 nv, placeNote_string_38 hb38 nv]; omega
  · rw [placeNote_string_36 ha36 nv, placeNote_string_44 hb44 nv]; omega
  · rw [placeNote_string_36 ha36 nv, placeNote_string_49 hb49 nv]; omega
  · rw [placeNote_string_36 ha36 nv,
      placeNote_string_cymbal hbcym hb44n hb49n]
    split_ifs <;> omega
  · rw [placeNote_string_36 ha36 nv, placeNote_string_tom hbtom hb38n]
    split_ifs <;> omega
  · rw [placeNote_string_38 ha38 nv, placeNote_string_36 hb36 nv]; omega
  · exact absurd (ha38.trans hb38.symm) hne
  · rw [placeNote_string_38 ha38 nv, placeNote_string_44 hb44 nv]; omega
  · rw [placeNote_string_38 ha38 nv, placeNote_string_49 hb49 nv]; omega
  · rw [placeNote_string_38 ha38 nv,
      placeNote_string_cymbal hbcym hb44n hb49n]
    split_ifs <;> omega
  · rw [placeNote_string_38 ha38 nv, placeNote_string_tom hbtom hb38n,
      if_pos ⟨38, ha38 ▸ ha, by decide, Or.inr rfl⟩]
    omega
  · rw [placeNote_string_44 ha44 nv, placeNote_string_36 hb36 nv]; omega
  · rw [placeNote_string_44 ha44 nv, placeNote_string_38 hb38 nv]; omega
  · exact absurd (ha44.trans hb44.symm) hne
  · rw [placeNote_string_44 ha44 nv, placeNote_string_49 hb49 nv]; omega
  · rw [placeNote_string_44 ha44 nv,
      placeNote_string_cymbal hbcym hb44n hb49n]
    split_ifs <;> omega
  · rw [placeNote_string_44 ha44 nv, placeNote_string_tom hbtom hb38n]
    split_ifs <;> omega
  · rw [placeNote_string_49 ha49 nv, placeNote_string_36 hb36 nv]; omega
  · rw [placeNote_string_49 ha49 nv, placeNote_string_38 hb38 nv]; omega
  · rw [placeNote_string_49 ha49 nv, placeNote_string_44 hb44 nv]; omega
  · exact absurd (ha49.trans hb49.symm) hne
  · rw [placeNote_string_49 ha49 nv,
      placeNote_string_cymbal hbcym hb44n hb49n,
      if_pos ⟨49, ha49 ▸ ha, by decide, Or.inr rfl⟩]
    omega
  · rw [placeNote_string_49 ha49 nv, placeNote_string_tom hbtom hb38n]
    split_ifs <;> omega
  · rw [placeNote_string_cymbal hacym ha44n ha49n,
      placeNote_string_36 hb36 nv]
    split_ifs <;> omega
  · rw [placeNote_string_cymbal hacym ha44n ha49n,
      placeNote_string_38 hb38 nv]
    split_ifs <;> omega
  · rw [placeNote_string_cymbal hacym ha44n ha49n,
      placeNote_string_44 hb44 nv]
    split_ifs <;> omega
  · rw [placeNote_string_cymbal hacym ha44n ha49n,
      if_pos ⟨49, hb49 ▸ hb, by decide, Or.inr rfl⟩,
      placeNote_string_49 hb49 nv]
    omega
  · rcases Nat.lt_or_gt_of_ne hne with hlt | hlt
    · rw [placeNote_string_cymbal hacym ha44n ha49n,
        if_neg (cymbal_pair_no_witness hhand ha hb hacym hbcym
          ha49n hb49n hlt),
        placeNote_string_cymbal hbcym hb44n hb49n,
        if_pos ⟨a.value, ha, hacym, Or.inl hlt⟩]
      omega
    · rw [placeNote_string_cymbal hacym ha44n ha49n,
        if_pos ⟨b.value, hb, hbcym, Or.inl hlt⟩,
        placeNote_string_cymbal hbcym hb44n hb49n,
        if_neg (cymbal_pair_no_witness hhand hb ha hbcym hacym
          hb49n ha49n hlt)]
      omega
  · rw [placeNote_string_cymbal hacym ha44n ha49n,
      placeNote_string_tom hbtom hb38n]
    split_ifs <;> omega
  · rw [placeNote_string_tom hatom ha38n, placeNote_string_36 hb36 nv]
    split_ifs <;> omega
  · rw [placeNote_string_tom hatom ha38n,
      if_pos ⟨38, hb38 ▸ hb, by decide, Or.inr rfl⟩,
      placeNote_string_38 hb38 nv]
    omega
  · rw [placeNote_string_tom hatom ha38n, placeNote_string_44 hb44 nv]
    split_ifs <;> omega
  · rw [placeNote_string_tom hatom ha38n, placeNote_string_49 hb49 nv]
    split_ifs <;> omega
  · rw [placeNote_string_tom hatom ha38n,
      placeNote_string_cymbal hbcym hb44n hb49n]
    split_ifs <;> omega
  · rcases Nat.lt_or_gt_of_ne hne with hlt | hlt
    · rw [placeNote_string_tom hatom ha38n,
        if_neg (tom_pair_no_witness hhand ha hb hatom hbtom
          ha38n hb38n hlt),
        placeNote_string_tom hbtom hb38n,
        if_pos ⟨a.value, ha, hatom, Or.inl hlt⟩]
      omega
    · rw [placeNote_string_tom hatom ha38n,
        if_pos ⟨b.value, hb, hbtom, Or.inl hlt⟩,
        placeNote_string_tom hbtom hb38n,
        if_neg (tom_pair_no_witness hhand hb ha hbtom hatom
          hb38n ha38n hlt)]
      omega

/-- C9: after the Note Standardizer processes a beat, no two distinct
notes whose codes belong to a recognized category (bass drum 36, snare 38,
pedal hi-hat 44, cymbal, tom — i.e. code 36 or a member of `HAND_NOTES`)
are assigned the same lane: lane assignments of classified notes are
pairwise distinct. -/
theorem standardize_lanes_conflict_free (notes : List Note) :
    (standardizeBeat notes).Pairwise (fun a b =>
      (a.value = 36 ∨ a.value ∈ HAND_NOTES) →
      (b.value = 36 ∨ b.value ∈ HAND_NOTES) → a.string ≠ b.string) := by
  cases he : notes.isEmpty with
  | true =>
    rw [List.isEmpty_iff.mp he]
    simp [standardizeBeat]
  | false =>
    rw [standardizeBeat_of_isEmpty_false he]
    set t := trimNoteValues (dedupByValue (notes.map simplifyNote)) with ht
    set nv := dedupKeepFirst (t.map Note.value) with hnv
    have htnd : (t.map Note.value).Nodup :=
      ((trimNoteValues_sublist _).map Note.value).nodup
        (nodup_value_dedupByValue _)
    have hhand : (nv.filter (fun v => decide (v ∈ HAND_NOTES))).length ≤ 2 := by
      rw [hnv, dedupKeepFirst_eq_self htnd, filter_hand_values_length]
      exact trim_hand_count_le_two (nodup_value_dedupByValue _)
    rw [List.pairwise_map]
    have hpair : t.Pairwise (fun a b => a.value ≠ b.value) :=
      List.pairwise_map.mp htnd
    refine hpair.imp_of_mem ?_
    intro a b hat hbt hvne hra hrb
    rw [placeNote_value] at hra hrb
    exact place_string_injective hhand
      (hnv ▸ value_mem_values hat) (hnv ▸ value_mem_values hbt)
      hvne hra hrb

/-! ## Counting retained notes -/

theorem length_filter_value_mem {notes : List Note}
    (hnd : (notes.map Note.value).Nodup) {r : List ℕ} (hr : r.Nodup)
    (hsub : ∀ v ∈ r, v ∈ notes.map Note.value) :
    (notes.filter (fun n => decide (n.value ∈ r))).length = r.length := by
  have h1 : (notes.filter (fun n => decide (n.value ∈ r))).map Note.value ⊆ r := by
    intro v hv
    obtain ⟨n, hn, rfl⟩ := List.mem_map.mp hv
    have := (List.mem_filter.mp hn).2
    simpa using this
  have h2 : r ⊆ (notes.filter (fun n => decide (n.value ∈ r))).map Note.value := by
    intro v hv
    obtain ⟨n, hn, rfl⟩ := List.mem_map.mp (hsub v hv)
    exact List.mem_map_of_mem Note.value
      (List.mem_filter.mpr ⟨hn, decide_eq_true hv⟩)
  have hnd1 : ((notes.filter (fun n => decide (n.value ∈ r))).map Note.value).Nodup :=
    ((List.filter_sublist _).map Note.value).nodup hnd
  have hle1 := nodup_length_le_of_subset hnd1 h1
  have hle2 := nodup_length_le_of_subset hr h2
  rw [List.length_map] at hle1 hle2
  omega

theorem trim_hand_filter_eq (notes : List Note) :
    (trimNoteValues notes).filter (fun n => decide (n.value ∈ HAND_NOTES)) =
      notes.filter (fun n => decide (n.value ∈
        (trimKeptValues (dedupKeepFirst (notes.map Note.value))).filter
          (fun v => decide (v ∈ dedupKeepFirst (notes.map Note.value))))) := by
  by_cases h3 : 2 < ((dedupKeepFirst (notes.map Note.value)).filter
      (fun v => decide (v ∈ HAND_NOTES))).length
  · obtain ⟨hlen, hrnd, hhand, hor, h38k, h49k, hg, hspecial⟩ :=
      trimKeptValues_spec (nodup_dedupKeepFirst _) h3
    simp only [trimNoteValues]
    rw [List.filter_filter]
    refine List.filter_congr ?_
    intro n hn
    rw [← Bool.decide_and, decide_eq_decide, List.mem_filter,
      List.mem_append, List.mem_filter]
    constructor
    · rintro ⟨hh, hk | ⟨-, hnh⟩⟩
      · exact ⟨hk, decide_eq_true (value_mem_values hn)⟩
      · exact absurd hh (by simpa using hnh)
    · rintro ⟨hk, -⟩
      exact ⟨hhand _ hk, Or.inl hk⟩
  · rw [trimNoteValues_eq_self h3]
    rw [trimKeptValues_of_le h3, List.filter_filter]
    refine List.filter_congr ?_
    intro n hn
    rw [decide_eq_decide, List.mem_filter, Bool.and_eq_true,
      decide_eq_true_iff, decide_eq_true_iff]
    constructor
    · intro hh
      exact ⟨value_mem_values hn, value_mem_values hn, hh⟩
    · rintro ⟨-, -, hh⟩
      exact hh

/-- C1 (amended): for every beat whose (deduplicated) note values contain
more than two distinct hand codes, every note the trim step retains was
present before trimming, and the trimmed beat contains exactly two
hand-played notes — unless code 57 is present while code 49 is absent, in
which case it contains exactly ONE hand-played note, because the
secondary-crash fallback (line 125) adds the phantom code 49 to the
retained set, the fill loop stops after adding a single real code, and no
note carries the value 49. -/
theorem trim_hand_codes_amended (notes : List Note)
    (hnd : (notes.map Note.value).Nodup)
    (h3 : 2 < ((notes.map Note.value).filter
      (fun v => decide (v ∈ HAND_NOTES))).length) :
    (∀ n ∈ trimNoteValues notes, n ∈ notes) ∧
    (if 57 ∈ notes.map Note.value ∧ 49 ∉ notes.map Note.value
     then ((trimNoteValues notes).filter
        (fun n => decide (n.value ∈ HAND_NOTES))).length = 1
     else ((trimNoteValues notes).filter
        (fun n => decide (n.value ∈ HAND_NOTES))).length = 2) := by
  have hnveq : dedupKeepFirst (notes.map Note.value) = notes.map Note.value :=
    dedupKeepFirst_eq_self hnd
  have h3' : 2 < ((dedupKeepFirst (notes.map Note.value)).filter
      (fun v => decide (v ∈ HAND_NOTES))).length := by
    rw [hnveq]; exact h3
  obtain ⟨hlen, hrnd, hhand, hor, h38k, h49k, hg, hspecial⟩ :=
    trimKeptValues_spec (nodup_dedupKeepFirst _) h3'
  refine ⟨fun n hn => (mem_trimNoteValues.mp hn).1, ?_⟩
  have hcount : ((trimNoteValues notes).filter
      (fun n => decide (n.value ∈ HAND_NOTES))).length =
      ((trimKeptValues (dedupKeepFirst (notes.map Note.value))).filter
        (fun v => decide (v ∈ dedupKeepFirst (notes.map Note.value)))).length := by
    rw [trim_hand_filter_eq notes]
    refine length_filter_value_mem hnd (hrnd.filter _) ?_
    intro v hv
    have := (List.mem_filter.mp hv).2
    rw [← hnveq]
    simpa using this
  by_cases hcond : 57 ∈ notes.map Note.value ∧ 49 ∉ notes.map Note.value
  · rw [if_pos hcond, hcount]
    exact hspecial ⟨by rw [hnveq]; exact hcond.1, by rw [hnveq]; exact hcond.2⟩
  · rw [if_neg hcond, hcount]
    have hgen : 49 ∈ dedupKeepFirst (notes.map Note.value) ∨
        57 ∉ dedupKeepFirst (notes.map Note.value) := by
      rw [hnveq]
      by_cases h57 : 57 ∈ notes.map Note.value
      · by_cases h49 : 49 ∈ notes.map Note.value
        · exact Or.inl h49
        · exact absurd ⟨h57, h49⟩ hcond
      · exact Or.inr h57
    have hall := hg hgen
    rw [List.filter_eq_self.mpr fun v hv => decide_eq_true (hall v hv)]
    exact hlen

/-- C1 is refuted on the beat with values {57, 45, 47}: three distinct hand
codes before trimming, yet only ONE hand note survives the trim (the note
with value 57), not two as the claim states. -/
theorem trim_hand_codes_counterexample :
    2 < ((([⟨57, 0, 0⟩, ⟨45, 0, 1⟩, ⟨47, 0, 2⟩] : List Note).map
      Note.value).filter (fun v => decide (v ∈ HAND_NOTES))).length ∧
    ((trimNoteValues [⟨57, 0, 0⟩, ⟨45, 0, 1⟩, ⟨47, 0, 2⟩]).filter
      (fun n => decide (n.value ∈ HAND_NOTES))).length ≠ 2 ∧
    trimNoteValues [⟨57, 0, 0⟩, ⟨45, 0, 1⟩, ⟨47, 0, 2⟩] = [⟨57, 0, 0⟩] := by
  decide

theorem trim_hand_codes_amended_witness :
    (([⟨42, 0, 0⟩, ⟨43, 0, 1⟩, ⟨45, 0, 2⟩] : List Note).map Note.value).Nodup ∧
    ((trimNoteValues [⟨42, 0, 0⟩, ⟨43, 0, 1⟩, ⟨45, 0, 2⟩]).filter
      (fun n => decide (n.value ∈ HAND_NOTES))).length = 2 := by
  refine ⟨by decide, ?_⟩
  have h := trim_hand_codes_amended [⟨42, 0, 0⟩, ⟨43, 0, 1⟩, ⟨45, 0, 2⟩]
    (by decide) (by decide)
  have h2 := h.2
  rw [if_neg (by decide)] at h2
  exact h2

/-- C2 (amended): every note whose code is the canonical bass-drum code 36,
the canonical snare code 38, or an unclassified code (one outside
`HAND_NOTES`) survives the trim step, regardless of how many hand notes
the beat holds.  The pedal-hi-hat code 44, however, belongs to the
`CYMBALS` hand set in the source and CAN be removed when the beat holds
more than two hand codes. -/
theorem trim_preserves_nonhand_amended (notes : List Note) (n : Note)
    (hn : n ∈ notes)
    (hcat : n.value = 36 ∨ n.value = 38 ∨ n.value ∉ HAND_NOTES) :
    n ∈ trimNoteValues notes := by
  rw [mem_trimNoteValues]
  refine ⟨hn, ?_⟩
  rcases hcat with h36 | h38 | hun
  · refine Or.inr ⟨value_mem_values hn, ?_⟩
    rw [h36]
    decide
  · left
    by_cases h3 : 2 < ((dedupKeepFirst (notes.map Note.value)).filter
        (fun v => decide (v ∈ HAND_NOTES))).length
    · obtain ⟨-, -, -, -, h38k, -, -, -⟩ :=
        trimKeptValues_spec (nodup_dedupKeepFirst _) h3
      rw [h38]
      exact h38k (h38 ▸ value_mem_values hn)
    · rw [trimKeptValues_of_le h3]
      refine List.mem_filter.mpr ⟨value_mem_values hn, ?_⟩
      rw [h38]
      decide
  · exact Or.inr ⟨value_mem_values hn, hun⟩

/-- C2 is refuted for the pedal-hi-hat code 44: in the beat with values
{42, 43, 44} (three hand codes — 44 is a member of `CYMBALS`), the trim
step removes the note with value 44. -/
theorem trim_preserves_nonhand_counterexample :
    (⟨44, 0, 2⟩ : Note) ∈ ([⟨42, 0, 0⟩, ⟨43, 0, 1⟩, ⟨44, 0, 2⟩] : List Note) ∧
    (⟨44, 0, 2⟩ : Note) ∉ trimNoteValues [⟨42, 0, 0⟩, ⟨43, 0, 1⟩, ⟨44, 0, 2⟩] ∧
    (standardizeBeat [⟨42, 0, 0⟩, ⟨43, 0, 1⟩, ⟨44, 0, 2⟩]).map Note.value
      = [42, 43] := by
  decide

theorem trim_preserves_nonhand_amended_witness :
    (⟨38, 0, 9⟩ : Note) ∈
      ([⟨38, 0, 9⟩, ⟨42, 0, 0⟩, ⟨43, 0, 1⟩, ⟨45, 0, 2⟩] : List Note) ∧
    (⟨38, 0, 9⟩ : Note) ∈
      trimNoteValues [⟨38, 0, 9⟩, ⟨42, 0, 0⟩, ⟨43, 0, 1⟩, ⟨45, 0, 2⟩] :=
  ⟨by decide, trim_preserves_nonhand_amended _ ⟨38, 0, 9⟩ (by decide)
    (Or.inr (Or.inl rfl))⟩

/-- C3 (amended): for every beat whose code set after simplification is
{49, 57, 45, 47, 41}, the trim step retains the hand set {49, 57} — both
cymbals, and NO tom: 49 is seeded (and re-added by the 57 fallback), and
the fill loop tries a cymbal before any tom, finding 57.  Placement then
assigns 49 lane 1 and 57 lane 2. -/
theorem scenarioB_amended (notes : List Note)
    (hnd : (notes.map Note.value).Nodup)
    (hsub : ∀ n ∈ notes, n.value ∈ ([49, 57, 45, 47, 41] : List ℕ))
    (h49 : 49 ∈ notes.map Note.value) (h57 : 57 ∈ notes.map Note.value)
    (h45 : 45 ∈ notes.map Note.value) (_h47 : 47 ∈ notes.map Note.value)
    (_h41 : 41 ∈ notes.map Note.value) :
    (∀ n ∈ trimNoteValues notes, n.value = 49 ∨ n.value = 57) ∧
    (∃ n ∈ trimNoteValues notes, n.value = 49) ∧
    (∃ n ∈ trimNoteValues notes, n.value = 57) ∧
    (∀ n ∈ trimNoteValues notes,
      (placeNote n (dedupKeepFirst
        ((trimNoteValues notes).map Note.value))).string
        = if n.value = 49 then 1 else 2) := by
  have hnveq : dedupKeepFirst (notes.map Note.value) = notes.map Note.value :=
    dedupKeepFirst_eq_self hnd
  have hvalmem : ∀ v ∈ notes.map Note.value, v ∈ ([49, 57, 45, 47, 41] : List ℕ) := by
    intro v hv
    obtain ⟨n, hn, rfl⟩ := List.mem_map.mp hv
    exact hsub n hn
  have hhandset : ∀ v ∈ ([49, 57, 45, 47, 41] : List ℕ), v ∈ HAND_NOTES := by
    decide
  have h49nv : 49 ∈ dedupKeepFirst (notes.map Note.value) := by
    rw [hnveq]; exact h49
  have h57nv : 57 ∈ dedupKeepFirst (notes.map Note.value) := by
    rw [hnveq]; exact h57
  have h38nv : 38 ∉ dedupKeepFirst (notes.map Note.value) := by
    rw [hnveq]
    intro h
    exact absurd (hvalmem 38 h) (by decide)
  have h3 : 2 < ((dedupKeepFirst (notes.map Note.value)).filter
      (fun v => decide (v ∈ HAND_NOTES))).length := by
    rw [hnveq]
    rw [List.filter_eq_self.mpr
      (fun v hv => decide_eq_true (hhandset v (hvalmem v hv)))]
    have hss : ([49, 57, 45] : List ℕ) ⊆ notes.map Note.value := by
      intro v hv
      rcases List.mem_cons.mp hv with rfl | hv
      · exact h49
      rcases List.mem_cons.mp hv with rfl | hv
      · exact h57
      rw [List.mem_singleton] at hv
      exact hv ▸ h45
    have := nodup_length_le_of_subset (by decide) hss
    simp only [List.length_cons, List.length_nil] at this
    omega
  obtain ⟨c, hcnv, hccym, hc49, hstep⟩ : ∃ c,
      c ∈ dedupKeepFirst (notes.map Note.value) ∧ c ∈ CYMBALS ∧ c ≠ 49 ∧
      trimStep (dedupKeepFirst (notes.map Note.value)) [49] = [49, c] := by
    unfold trimStep
    cases hc : (dedupKeepFirst (notes.map Note.value)).find?
        (fun v => decide (v ∈ CYMBALS ∧ v ∉ ([49] : List ℕ))) with
    | some c =>
      have hcp := List.find?_some hc
      have hcnv := List.mem_of_find?_eq_some hc
      rw [decide_eq_true_iff] at hcp
      obtain ⟨hccym, hcrv⟩ := hcp
      have hc49 : c ≠ 49 := by
        intro h
        apply hcrv
        rw [h]
        exact List.mem_singleton_self 49
      exact ⟨c, hcnv, hccym, hc49, by norm_num⟩
    | none =>
      have hnone := List.find?_eq_none.mp hc
      exact absurd
        (by decide : decide ((57 : ℕ) ∈ CYMBALS ∧ 57 ∉ ([49] : List ℕ)) = true)
        (hnone 57 h57nv)
  have hc57 : c = 57 := by
    have hcset : c ∈ ([49, 57, 45, 47, 41] : List ℕ) := by
      rw [hnveq] at hcnv
      exact hvalmem c hcnv
    have hdec : ∀ v ∈ ([49, 57, 45, 47, 41] : List ℕ),
        v ∈ CYMBALS → v ≠ 49 → v = 57 := by decide
    exact hdec c hcset hccym hc49
  subst hc57
  have htk : trimKeptValues (dedupKeepFirst (notes.map Note.value))
      = [49, 57] := by
    rw [trimKeptValues_of_gt h3, trimSeed_of_49_no38 h49nv h38nv]
    have he : (dedupKeepFirst (notes.map Note.value)).length + 2
        = (dedupKeepFirst (notes.map Note.value)).length + 1 + 1 := rfl
    rw [he, trimLoop_succ_lt (by norm_num), hstep,
      trimLoop_of_two_le (by norm_num)]
  have hmem : ∀ n ∈ trimNoteValues notes, n.value = 49 ∨ n.value = 57 := by
    intro n hn
    rcases (mem_trimNoteValues.mp hn).2 with hk | ⟨hmem, hnh⟩
    · rw [htk] at hk
      rcases List.mem_cons.mp hk with h | h
      · exact Or.inl h
      · rw [List.mem_singleton] at h
        exact Or.inr h
    · rw [hnveq] at hmem
      exact absurd (hhandset _ (hvalmem _ hmem)) hnh
  obtain ⟨n49, hn49, hn49v⟩ := List.mem_map.mp h49
  have hn49t : n49 ∈ trimNoteValues notes := by
    rw [mem_trimNoteValues]
    exact ⟨hn49, Or.inl (by rw [htk, hn49v]; exact List.mem_cons_self 49 [57])⟩
  obtain ⟨n57, hn57, hn57v⟩ := List.mem_map.mp h57
  have hn57t : n57 ∈ trimNoteValues notes := by
    rw [mem_trimNoteValues]
    refine ⟨hn57, Or.inl ?_⟩
    rw [htk, hn57v]
    exact List.mem_cons_of_mem 49 (List.mem_singleton_self 57)
  refine ⟨hmem, ⟨n49, hn49t, hn49v⟩, ⟨n57, hn57t, hn57v⟩, ?_⟩
  intro n hn
  have h49nv2 : 49 ∈ dedupKeepFirst ((trimNoteValues notes).map Note.value) := by
    have := value_mem_values hn49t
    rw [hn49v] at this
    exact this
  rcases hmem n hn with hv | hv
  · rw [if_pos hv]
    exact placeNote_string_49 hv _
  · rw [if_neg (by rw [hv]; norm_num)]
    rw [placeNote_string_cymbal (by rw [hv]; decide) (by rw [hv]; norm_num)
      (by rw [hv]; norm_num)]
    rw [if_pos ⟨49, h49nv2, by decide, Or.inr rfl⟩]

/-- C3 is refuted on the beat with values {49, 57, 45, 47, 41}: the trim
step retains NO tom at all — it keeps both cymbals 49 and 57 — and the
beat is placed on lanes 1 and 2, not {1, 3-or-4}. -/
theorem scenarioB_counterexample :
    (((trimNoteValues
        [⟨49, 0, 0⟩, ⟨57, 0, 1⟩, ⟨45, 0, 2⟩, ⟨47, 0, 3⟩, ⟨41, 0, 4⟩]).map
      Note.value).filter (fun v => decide (v ∈ TOMS))).length = 0 ∧
    57 ∈ (trimNoteValues
        [⟨49, 0, 0⟩, ⟨57, 0, 1⟩, ⟨45, 0, 2⟩, ⟨47, 0, 3⟩, ⟨41, 0, 4⟩]).map
      Note.value ∧
    standardizeBeat [⟨49, 0, 0⟩, ⟨57, 0, 1⟩, ⟨45, 0, 2⟩, ⟨47, 0, 3⟩, ⟨41, 0, 4⟩]
      = [⟨49, 1, 0⟩, ⟨57, 2, 1⟩] := by
  decide

theorem scenarioB_amended_witness :
    (∃ n ∈ trimNoteValues
      [⟨49, 0, 0⟩, ⟨57, 0, 1⟩, ⟨45, 0, 2⟩, ⟨47, 0, 3⟩, ⟨41, 0, 4⟩],
      n.value = 49) ∧
    (∃ n ∈ trimNoteValues
      [⟨49, 0, 0⟩, ⟨57, 0, 1⟩, ⟨45, 0, 2⟩, ⟨47, 0, 3⟩, ⟨41, 0, 4⟩],
      n.value = 57) :=
  let h := scenarioB_amended
    [⟨49, 0, 0⟩, ⟨57, 0, 1⟩, ⟨45, 0, 2⟩, ⟨47, 0, 3⟩, ⟨41, 0, 4⟩]
    (by decide) (by decide) (by decide) (by decide) (by decide) (by decide)
    (by decide)
  ⟨h.2.1, h.2.2.1⟩

/-- The cymbal lane rule as claim C4 words it, for comparison: lane 2 when
some OTHER cymbal-category code (pedal-hi-hat 44 exempted as its own
category) in the beat is numerically lower than the note's code, or when
code 49 is present; lane 1 otherwise. -/
def cymbalLaneSpecC4 (c : ℕ) (nv : List ℕ) : ℕ :=
  if (nv.any fun v => decide (v ≠ 44 ∧ v ∈ CYMBALS ∧ v < c)) ||
      decide (49 ∈ nv) then 2
  else 1

/-- C4 (amended): for every non-49 cymbal-code note, placement assigns
lane 2 exactly when some cymbal code in the beat — WITH the pedal-hi-hat
code 44 counting as a cymbal code, since 44 is a member of `CYMBALS` in
the source — is numerically lower than the note's code or equals 49, and
lane 1 otherwise. -/
theorem cymbal_lane_rule_amended (n : Note) (nv : List ℕ)
    (hc : n.value ∈ CYMBALS) (h44 : n.value ≠ 44) (h49 : n.value ≠ 49) :
    ((placeNote n nv).string = 2 ↔
      ∃ v ∈ nv, v ∈ CYMBALS ∧ (v < n.value ∨ v = 49)) ∧
    ((placeNote n nv).string = 1 ↔
      ¬ ∃ v ∈ nv, v ∈ CYMBALS ∧ (v < n.value ∨ v = 49)) := by
  rw [placeNote_string_cymbal hc h44 h49]
  split_ifs with h
  · simp [h]
  · simp [h]

/-- C4 is refuted on the post-trim beat {44, 46}: the code assigns the
open-hi-hat note (46) lane 2 because 44 counts as a lower cymbal code,
while the claim's rule (44 being its own category) predicts lane 1. -/
theorem cymbal_lane_rule_counterexample :
    standardizeBeat [⟨44, 0, 0⟩, ⟨46, 0, 1⟩] = [⟨44, 6, 0⟩, ⟨46, 2, 1⟩] ∧
    cymbalLaneSpecC4 46 [44, 46] = 1 := by
  decide

theorem cymbal_lane_rule_amended_witness :
    (placeNote ⟨46, 0, 1⟩ [44, 46]).string = 2 :=
  (cymbal_lane_rule_amended ⟨46, 0, 1⟩ [44, 46] (by decide) (by decide)
    (by decide)).1.mpr ⟨44, by decide, by decide, Or.inl (by decide)⟩

/-- C5: for every beat of every voice of every percussion track, after the
Note Standardizer has run, at most two of the beat's notes have codes
belonging to the cymbal or tom sets. -/
theorem hand_cap_invariant (tracks : List Track) (t : Track)
    (ht : t ∈ standardizeTracks tracks) (hperc : t.isPercussionTrack = true)
    (m : Measure) (hm : m ∈ t.measures) (v : Voice) (hv : v ∈ m.voices)
    (b : Beat) (hb : b ∈ v.beats) :
    (b.notes.filter (fun n => decide (n.value ∈ HAND_NOTES))).length ≤ 2 := by
  obtain ⟨t0, ht0, hteq⟩ := List.mem_map.mp ht
  by_cases hp : t0.isPercussionTrack = true
  · rw [if_pos hp] at hteq
    subst hteq
    simp only [standardizeTrack] at hm
    obtain ⟨m0, hm0, rfl⟩ := List.mem_map.mp hm
    simp only [standardizeMeasure] at hv
    obtain ⟨v0, hv0, rfl⟩ := List.mem_map.mp hv
    simp only [standardizeVoice] at hb
    obtain ⟨b0, hb0, rfl⟩ := List.mem_map.mp hb
    simp only [standardizeBeatObj]
    exact standardizeBeat_hand_le_two b0.notes
  · rw [if_neg hp] at hteq
    subst hteq
    exact absurd hperc hp

theorem hand_cap_invariant_witness :
    ((standardizeBeatObj
        ⟨960, [⟨49, 0, 0⟩, ⟨57, 0, 1⟩, ⟨45, 0, 2⟩, ⟨42, 0, 3⟩]⟩).notes.filter
      (fun n => decide (n.value ∈ HAND_NOTES))).length ≤ 2 :=
  hand_cap_invariant
    [⟨true, [⟨[⟨[⟨960, [⟨49, 0, 0⟩, ⟨57, 0, 1⟩, ⟨45, 0, 2⟩, ⟨42, 0, 3⟩]⟩]⟩]⟩]⟩]
    (standardizeTrack
      ⟨true, [⟨[⟨[⟨960, [⟨49, 0, 0⟩, ⟨57, 0, 1⟩, ⟨45, 0, 2⟩, ⟨42, 0, 3⟩]⟩]⟩]⟩]⟩)
    (by decide) rfl
    (standardizeMeasure
      ⟨[⟨[⟨960, [⟨49, 0, 0⟩, ⟨57, 0, 1⟩, ⟨45, 0, 2⟩, ⟨42, 0, 3⟩]⟩]⟩]⟩)
    (by decide)
    (standardizeVoice ⟨[⟨960, [⟨49, 0, 0⟩, ⟨57, 0, 1⟩, ⟨45, 0, 2⟩, ⟨42, 0, 3⟩]⟩]⟩)
    (by decide)
    (standardizeBeatObj ⟨960, [⟨49, 0, 0⟩, ⟨57, 0, 1⟩, ⟨45, 0, 2⟩, ⟨42, 0, 3⟩]⟩)
    (by decide)

/-- C6 (amended): for a voice [note-beat of duration d, eighth rest, eighth
rest, sounding beat], the coalescer produces the two-beat sequence with the
first beat's duration extended by a quarter (d + 960 ticks) PROVIDED the
incremental sums d + 1/8 and then d + 1/4 each canonicalize — the source
merges one rest at a time (line 54), so representability of 1/8 + 1/8
alone does not suffice. -/
theorem rest_merge_scenarioA_amended (rep : ℕ → Bool) (d q : ℕ)
    (n1 n2 : List Note) (h1 : n1.isEmpty = false) (h2 : n2.isEmpty = false)
    (hr1 : rep (d + 480) = true) (hr2 : rep (d + 480 + 480) = true) :
    removeRestsFromVoice rep ⟨[⟨d, n1⟩, ⟨480, []⟩, ⟨480, []⟩, ⟨q, n2⟩]⟩ =
      ⟨[⟨d + 960, n1⟩, ⟨q, n2⟩]⟩ := by
  simp only [removeRestsFromVoice, coalesceGo, h1, h2, hr1, hr2,
    Bool.false_eq_true, if_false, List.isEmpty_nil, if_true]
  norm_num [Voice.mk.injEq]

/-- C6 as stated is refuted at d = 720 ticks (a dotted eighth): the sum of
the two eighth rests canonicalizes to a quarter (960), yet the output has
THREE beats — the first merge attempt d + 480 = 1200 fails, the first rest
is retained, and the second rest merges into it — instead of the claimed
two-beat sequence. -/
theorem rest_merge_scenarioA_counterexample :
    stdRepresentable (480 + 480) = true ∧
    removeRestsFromVoice stdRepresentable
        ⟨[⟨720, [⟨38, 0, 0⟩]⟩, ⟨480, []⟩, ⟨480, []⟩, ⟨960, [⟨36, 0, 0⟩]⟩]⟩ =
      ⟨[⟨720, [⟨38, 0, 0⟩]⟩, ⟨960, []⟩, ⟨960, [⟨36, 0, 0⟩]⟩]⟩ ∧
    removeRestsFromVoice stdRepresentable
        ⟨[⟨720, [⟨38, 0, 0⟩]⟩, ⟨480, []⟩, ⟨480, []⟩, ⟨960, [⟨36, 0, 0⟩]⟩]⟩ ≠
      ⟨[⟨720 + 960, [⟨38, 0, 0⟩]⟩, ⟨960, [⟨36, 0, 0⟩]⟩]⟩ := by
  refine ⟨by decide, by decide, by decide⟩

theorem rest_merge_scenarioA_amended_witness :
    stdRepresentable (960 + 480) = true ∧
    stdRepresentable (960 + 480 + 480) = true ∧
    removeRestsFromVoice stdRepresentable
        ⟨[⟨960, [⟨38, 0, 0⟩]⟩, ⟨480, []⟩, ⟨480, []⟩, ⟨960, [⟨36, 0, 0⟩]⟩]⟩ =
      ⟨[⟨960 + 960, [⟨38, 0, 0⟩]⟩, ⟨960, [⟨36, 0, 0⟩]⟩]⟩ :=
  ⟨by decide, by decide,
    rest_merge_scenarioA_amended stdRepresentable 960 960 [⟨38, 0, 0⟩]
      [⟨36, 0, 0⟩] rfl rfl (by decide) (by decide)⟩

/-- C7: the Note Standardizer's per-beat transformation (simplify, then
trim, then place) is idempotent — applying it twice yields the same note
list, hence the same code set and the same lane assignment for every note,
as applying it once — and the simplify step maps the already-canonical
codes 36, 38 and 51 to themselves. -/
theorem standardizer_idempotent (notes : List Note) (s i : ℕ) :
    standardizeBeat (standardizeBeat notes) = standardizeBeat notes ∧
    simplifyNote ⟨36, s, i⟩ = ⟨36, s, i⟩ ∧
    simplifyNote ⟨38, s, i⟩ = ⟨38, s, i⟩ ∧
    simplifyNote ⟨51, s, i⟩ = ⟨51, s, i⟩ :=
  ⟨standardizeBeat_idem notes, rfl, rfl, rfl⟩

/-- C8: whenever the rest coalescer attempts to merge a silent beat into
the preceding sounding beat and canonicalization of the summed duration
fails, the silent beat is kept in the output unchanged (it follows the
preceding beat directly), it becomes the new merge target for the
remaining beats, and the preceding beat is emitted with its duration
exactly as it was; the scan continues normally (the model is a total
function — no error escapes). -/
theorem rest_merge_failure_keeps_beat (rep : ℕ → Bool) (l b : Beat)
    (bs : List Beat) (hl : l.notes.isEmpty = false) (hb : b.notes = [])
    (hfail : rep (l.duration + b.duration) = false) :
    removeRestsFromVoice rep ⟨l :: b :: bs⟩ =
      ⟨l :: coalesceGo rep (some b) bs⟩ := by
  simp [removeRestsFromVoice, coalesceGo, hl, hb, hfail]

theorem rest_merge_failure_keeps_beat_witness :
    stdRepresentable (720 + 480) = false ∧
    removeRestsFromVoice stdRepresentable
        ⟨[⟨720, [⟨38, 0, 0⟩]⟩, ⟨480, []⟩]⟩ =
      ⟨[⟨720, [⟨38, 0, 0⟩]⟩, ⟨480, []⟩]⟩ :=
  ⟨by decide, by
    have h := rest_merge_failure_keeps_beat stdRepresentable
      ⟨720, [⟨38, 0, 0⟩]⟩ ⟨480, []⟩ [] rfl rfl (by decide)
    simpa [coalesceGo] using h⟩

theorem dedupByValue_find? (l : List Note) (v : ℕ)
    (hv : v ∈ l.map Note.value) :
    (dedupByValue l).find? (fun n => n.value == v)
      = l.reverse.find? (fun n => n.value == v) := by
  unfold dedupByValue
  have hmem : v ∈ dedupKeepFirst (l.map Note.value) :=
    mem_dedupKeepFirst.mpr hv
  have hall : ∀ u ∈ dedupKeepFirst (l.map Note.value), u ∈ l.map Note.value :=
    fun u hu => mem_dedupKeepFirst.mp hu
  generalize hvs : dedupKeepFirst (l.map Note.value) = vs at hmem hall
  clear hvs
  induction vs with
  | nil => exact absurd hmem (List.not_mem_nil v)
  | cons u vs ih =>
    have hu : u ∈ l.map Note.value := hall u (List.mem_cons_self u vs)
    obtain ⟨m, hm, hmv⟩ := List.mem_map.mp hu
    have hsome : (l.reverse.find? (fun x => x.value == u)).isSome = true := by
      rw [List.find?_isSome]
      exact ⟨m, List.mem_reverse.mpr hm, by simp [hmv]⟩
    obtain ⟨mu, hmu⟩ := Option.isSome_iff_exists.mp hsome
    have hmuv : mu.value = u := by
      have := List.find?_some hmu
      simpa using this
    rw [List.filterMap_cons, hmu]
    by_cases huv : u = v
    · subst huv
      rw [List.find?_cons_of_pos _ (by simp [hmuv]), hmu]
    · rw [List.find?_cons_of_neg _ (by simp [hmuv, huv])]
      refine ih ?_ ?_
      · rcases List.mem_cons.mp hmem with h | h
        · exact absurd h.symm huv
        · exact h
      · intro x hx
        exact hall x (List.mem_cons_of_mem u hx)

/-- C10: when simplification maps two or more notes of a beat to the same
instrument code, the note retained for that code after deduplication is
the LAST such note in the beat's original order (the dict comprehension on
line 159 overwrites earlier entries), so that note's opaque attributes are
the ones preserved. -/
theorem dedup_keeps_last_note (notes : List Note) (v : ℕ)
    (hv : v ∈ (notes.map simplifyNote).map Note.value) :
    (dedupByValue (notes.map simplifyNote)).find? (fun n => n.value == v)
      = ((notes.map simplifyNote).reverse).find? (fun n => n.value == v) :=
  dedupByValue_find? (notes.map simplifyNote) v hv

theorem dedup_keeps_last_note_witness :
    36 ∈ (([⟨35, 1, 0⟩, ⟨36, 2, 1⟩] : List Note).map simplifyNote).map
      Note.value ∧
    (dedupByValue (([⟨35, 1, 0⟩, ⟨36, 2, 1⟩] : List Note).map
        simplifyNote)).find? (fun n => n.value == 36) = some ⟨36, 2, 1⟩ :=
  ⟨by decide, by
    have h := dedup_keeps_last_note [⟨35, 1, 0⟩, ⟨36, 2, 1⟩] 36 (by decide)
    rw [h]
    decide⟩
